import Mathlib

/-!
# Verification of the `stick_ants` simulation core (`src/main.rs`)

Shallow embedding of the simulation engine of `stick_ants`:

* `f32` positions and speeds are modelled as `ℚ` (exact real arithmetic; the
  source never produces NaN/inf from a valid configuration, so
  `partial_cmp(..).unwrap_or(Equal)` coincides with the total order on `ℚ`);
* Rust's stable `Vec::sort_by` is modelled by `List.insertionSort` over the
  relation `a.position ≤ b.position`, which is the stable sort for that
  comparator (equal keys keep their original relative order);
* the ambient RNG feeding `Ant::default()` is modelled by an explicit list
  `drawn` of pre-drawn ants handed to `AntRod::from_args`;
* rendering (`Drawer`), sleeping and CLI string parsing are out of scope; of
  `Args::new` we embed the post-parse validation logic, with the
  `usize::MAX` "not provided" sentinel for `molly_index` modelled as
  `Option ℕ`.
-/

/-- `enum AntType { None, Some, Molly }` from the source.  (`None` is only
used by the renderer; the engine creates `Some` and `Molly` ants.) -/
inductive AntType where
  | None
  | Some
  | Molly
deriving DecidableEq

/-- `struct Ant { position: f32, speed: f32, typ: AntType }`. -/
structure Ant where
  position : ℚ
  speed : ℚ
  typ : AntType
deriving DecidableEq

/-- `struct AntRod { ants: Vec<Ant>, ant_step: f32, time: usize }`
(the `drawer` field is rendering-only and omitted). -/
structure AntRod where
  ants : List Ant
  ant_step : ℚ
  time : ℕ
deriving DecidableEq

/-- The comparator of both `sort_by` calls in the source:
`a.position.partial_cmp(&b.position).unwrap_or(Ordering::Equal)`.
On `ℚ` this is the total order by position.  Rust's `sort_by` is a stable
sort, which `List.insertionSort` over this (non-strict) relation realises. -/
def sortAnts (l : List Ant) : List Ant :=
  List.insertionSort (fun a b => a.position ≤ b.position) l

/-- The relabel loop of `AntRod::step`:
`for (a, t) in ants.iter_mut().zip(typ.iter()) { a.typ = *t }`.
`zip` stops at the shorter sequence, leaving any remaining ants unchanged
(in the source both sequences always have equal length). -/
def relabel : List Ant → List AntType → List Ant
  | a :: as, t :: ts => { a with typ := t } :: relabel as ts
  | as, [] => as
  | [], _ :: _ => []

/-- The back-eviction loop of `AntRod::step`:
`while ants.last().map(|a| a.position >= 1.).unwrap_or_default() { ants.pop() }`
removes the maximal suffix of ants with position `≥ 1`. -/
def removeFallenBack (l : List Ant) : List Ant :=
  (l.reverse.dropWhile fun a => decide (1 ≤ a.position)).reverse

/-- The front-eviction of `AntRod::step`:
`ants.drain(0..ants.iter().position(|a| a.position >= 0.).unwrap_or(ants.len()))`
drops everything before the first ant with position `≥ 0` (everything, if
there is none); `List.findIdx` returns the length when nothing matches,
exactly like the `unwrap_or(len)`. -/
def removeFallenFront (l : List Ant) : List Ant :=
  l.drop (l.findIdx fun a => decide (0 ≤ a.position))

/-- The advance phase of `AntRod::step`:
`for a in &mut ants { a.position += a.speed * ant_step }`. -/
def AntRod.advanced (s : AntRod) : List Ant :=
  s.ants.map fun a => { a with position := a.position + a.speed * s.ant_step }

/-- The state of the ant vector after the advance, capture-kinds, resort and
relabel phases of `AntRod::step`, just before eviction:
`let typ = ants.iter().map(|a| a.typ).collect(); ants.sort_by(..);`
`for (a, t) in ants.iter_mut().zip(typ.iter()) { a.typ = *t }`. -/
def AntRod.preEvict (s : AntRod) : List Ant :=
  relabel (sortAnts s.advanced) (s.advanced.map fun a => a.typ)

/-- `AntRod::step`: advance, capture kinds, resort, relabel, evict from the
back then from the front, increment `time`. -/
def AntRod.step (s : AntRod) : AntRod :=
  { s with
    ants := removeFallenFront (removeFallenBack s.preEvict)
    time := s.time + 1 }

/-- `AntRod::has_ants`: `!self.ants.is_empty()`. -/
def AntRod.has_ants (s : AntRod) : Bool :=
  !s.ants.isEmpty

/-- `n` consecutive calls of `AntRod::step`, as in the driving loop of `main`. -/
def AntRod.stepN (s : AntRod) : ℕ → AntRod
  | 0 => s
  | n + 1 => (s.stepN n).step

/-- The simulation parameters of `struct Args` that the engine consumes
(`sleep`, `resolution` and `start` only affect rendering/pacing). -/
structure Args where
  ant_count : ℕ
  molly_index : ℕ
  ant_step : ℚ
  regular : Bool
deriving DecidableEq

/-- The validation logic at the end of `Args::new` (after flag parsing):
`molly_index` defaults to the sentinel `usize::MAX`, modelled here as
`Option.none`; if unset it becomes `ant_count / 2`; then
`if molly_index >= ant_count` the function returns an error, otherwise the
parsed arguments.  No other numeric field (in particular `ant_step`) is
validated. -/
def Args.new (ant_count : ℕ) (molly_index : Option ℕ) (ant_step : ℚ)
    (regular : Bool) : Except String Args :=
  let mi := molly_index.getD (ant_count / 2)
  if ant_count ≤ mi then
    Except.error "Invalid molly index"
  else
    Except.ok { ant_count := ant_count, molly_index := mi,
                ant_step := ant_step, regular := regular }

/-- The left loop of the `regular` branch of `AntRod::from_args`:
`for i in 0..(ant_count / 2) { ants[i] = Ant { position: dis * i + dis, speed: 1., typ: Some } }`. -/
def placeLeft (count : ℕ) (dis : ℚ) (ants : List Ant) : List Ant :=
  (List.range (count / 2)).foldl
    (fun l i => l.set i { position := dis * (i : ℚ) + dis, speed := 1, typ := AntType.Some })
    ants

/-- The right loop of the `regular` branch of `AntRod::from_args`:
`for i in (ant_count / 2 + 1)..ant_count { ants[i] = Ant { position: dis * i + dis, speed: -1., typ: Some } }`. -/
def placeRight (count : ℕ) (dis : ℚ) (ants : List Ant) : List Ant :=
  (List.range' (count / 2 + 1) (count - (count / 2 + 1))).foldl
    (fun l i => l.set i { position := dis * (i : ℚ) + dis, speed := -1, typ := AntType.Some })
    ants

/-- The `regular` branch of `AntRod::from_args`: `dis = 1 / (ant_count + 1)`,
left loop, then `ants[ant_count / 2] = Ant { position: 0.5, speed: 1., typ: Molly }`,
then right loop.  (For `ant_count = 0` the Rust indexing `ants[0]` would
panic; `Args::new` makes that unreachable by requiring
`molly_index < ant_count`.) -/
def placeRegular (count : ℕ) (ants : List Ant) : List Ant :=
  placeRight count (1 / ((count : ℚ) + 1))
    ((placeLeft count (1 / ((count : ℚ) + 1)) ants).set (count / 2)
      { position := 1 / 2, speed := 1, typ := AntType.Molly })

/-- The random branch's `ants[molly_index].typ = AntType::Molly` (an
in-place field update; out-of-range indices would panic in Rust and are
unreachable because `Args::new` requires `molly_index < ant_count`). -/
def setMolly (l : List Ant) (i : ℕ) : List Ant :=
  match l[i]? with
  | some a => l.set i { a with typ := AntType.Molly }
  | none => l

/-- `AntRod::from_args`.  `drawn` is the list of `ant_count` ants produced by
the `Ant::default()` draws (ambient RNG made explicit).  Regular mode
overwrites every slot deterministically; random mode sorts the draws by
position and marks the ant at rank `molly_index` as Molly. -/
def AntRod.from_args (args : Args) (drawn : List Ant) : AntRod :=
  { ants :=
      if args.regular then
        placeRegular args.ant_count drawn
      else
        setMolly (sortAnts drawn) args.molly_index
    ant_step := args.ant_step
    time := 0 }

/-- The values `Ant::default()` can produce: a position drawn from
`gen_range(0.0..1.)`, a speed of `1.` or `-1.`, and `typ: AntType::Some`. -/
def validDraw (a : Ant) : Prop :=
  0 ≤ a.position ∧ a.position < 1 ∧ (a.speed = 1 ∨ a.speed = -1) ∧
    a.typ = AntType.Some

instance : DecidablePred validDraw := fun a => by
  unfold validDraw
  infer_instance

/-- The agent sequence is sorted by ascending position (the structural
invariant stated on the `ants` field: "the vector is always ordered by
position"). -/
def sortedByPos (l : List Ant) : Prop :=
  List.Sorted (fun a b : Ant => a.position ≤ b.position) l

instance : DecidablePred sortedByPos := fun l => by
  unfold sortedByPos List.Sorted
  infer_instance

/-- Number of ants labelled Molly. -/
def mollyCount (l : List Ant) : ℕ :=
  l.countP fun a => decide (a.typ = AntType.Molly)

/-- The ant carrying the Molly label is out of bounds at the eviction phase
of this step, i.e. the Molly trajectory is evicted during `step`. -/
def AntRod.mollyEvicted (s : AntRod) : Prop :=
  ∃ a ∈ s.preEvict, a.typ = AntType.Molly ∧ (a.position < 0 ∨ 1 ≤ a.position)

instance (s : AntRod) : Decidable s.mollyEvicted := by
  unfold AntRod.mollyEvicted
  infer_instance

/-- Survives eviction: `0 ≤ position < 1`. -/
def inBounds (a : Ant) : Bool :=
  decide (0 ≤ a.position) && decide (a.position < 1)

/-- The per-index description of the ant vector built by the `regular`
branch (what the three writes of `placeRegular` amount to, slot by slot). -/
def regularAnt (count : ℕ) (i : ℕ) : Ant :=
  if i = count / 2 then
    { position := 1 / 2, speed := 1, typ := AntType.Molly }
  else if i < count / 2 then
    { position := ((i : ℚ) + 1) / ((count : ℚ) + 1), speed := 1, typ := AntType.Some }
  else
    { position := ((i : ℚ) + 1) / ((count : ℚ) + 1), speed := -1, typ := AntType.Some }

instance : IsTotal Ant fun a b => a.position ≤ b.position :=
  ⟨fun a b => le_total a.position b.position⟩

instance : IsTrans Ant fun a b => a.position ≤ b.position :=
  ⟨fun _ _ _ h1 h2 => le_trans h1 h2⟩

/- Core `Rat` arithmetic is `@[irreducible]`, which keeps `decide` from
evaluating concrete states; restore default reducibility for this file so
concrete runs of the embedded functions can be checked by the kernel. -/
attribute [local semireducible] Rat.add Rat.mul Rat.inv Rat.sub

/-- A concrete draw, as `Ant::default()` could produce it. -/
def sampleDraw : Ant :=
  { position := 1 / 4, speed := 1, typ := AntType.Some }

/-- A concrete three-ant regular configuration (`--regular -c 3 -m 1 -s 0.1`). -/
def sampleArgs : Args :=
  { ant_count := 3, molly_index := 1, ant_step := 1 / 10, regular := true }

/-- A concrete one-ant regular configuration (`--regular -c 1 -m 0 -s 0.5`). -/
def sampleArgs1 : Args :=
  { ant_count := 1, molly_index := 0, ant_step := 1 / 2, regular := true }

/-- A concrete one-ant running state, for evaluating `step`. -/
def sampleRod : AntRod :=
  { ants := [{ position := 1 / 4, speed := 1, typ := AntType.Molly }],
    ant_step := 1 / 4, time := 0 }

/-! ## Basic lemmas about the step phases -/

/-- Relabeling changes only the `typ` field: positions and speeds are kept,
slot by slot. -/
lemma relabel_map_posSpeed (l : List Ant) (ts : List AntType) :
    (relabel l ts).map (fun a => (a.position, a.speed)) =
      l.map (fun a => (a.position, a.speed)) := by
  induction l generalizing ts with
  | nil => cases ts <;> rfl
  | cons a as ih =>
    cases ts with
    | nil => rfl
    | cons t ts => simp [relabel, ih]

lemma relabel_length (l : List Ant) (ts : List AntType) :
    (relabel l ts).length = l.length := by
  have h := congrArg List.length (relabel_map_posSpeed l ts)
  simpa using h

lemma mem_relabel {a : Ant} {l : List Ant} {ts : List AntType}
    (h : a ∈ relabel l ts) :
    ∃ b ∈ l, a.position = b.position ∧ a.speed = b.speed := by
  have h1 : (a.position, a.speed) ∈
      (relabel l ts).map (fun a => (a.position, a.speed)) :=
    List.mem_map_of_mem _ h
  rw [relabel_map_posSpeed] at h1
  obtain ⟨b, hb, he⟩ := List.mem_map.mp h1
  refine ⟨b, hb, ?_, ?_⟩ <;> simp_all [Prod.ext_iff]

/-- When the captured kind list has the same length as the ant list, the
relabeled ants carry exactly the captured kinds, in order. -/
lemma relabel_map_typ (l : List Ant) (ts : List AntType)
    (h : ts.length = l.length) :
    (relabel l ts).map (fun a => a.typ) = ts := by
  induction l generalizing ts with
  | nil =>
    cases ts with
    | nil => rfl
    | cons t ts => simp at h
  | cons a as ih =>
    cases ts with
    | nil => simp at h
    | cons t ts =>
      simp only [List.length_cons, Nat.succ.injEq] at h
      simp [relabel, ih ts h]

lemma sortAnts_perm (l : List Ant) : (sortAnts l).Perm l :=
  List.perm_insertionSort _ l

lemma sortAnts_sorted (l : List Ant) : sortedByPos (sortAnts l) :=
  List.sorted_insertionSort _ l

lemma sortAnts_length (l : List Ant) : (sortAnts l).length = l.length :=
  (sortAnts_perm l).length_eq

/-- Sortedness by position only depends on the `(position, speed)` view. -/
lemma sortedByPos_iff_pairwise_map (l : List Ant) :
    sortedByPos l ↔
      (l.map fun a => (a.position, a.speed)).Pairwise
        (fun p q : ℚ × ℚ => p.1 ≤ q.1) := by
  unfold sortedByPos List.Sorted
  exact Iff.symm
    (@List.pairwise_map Ant (ℚ × ℚ) (fun a => (a.position, a.speed))
      (fun p q => p.1 ≤ q.1) l)

lemma sortedByPos_relabel (l : List Ant) (ts : List AntType)
    (h : sortedByPos l) : sortedByPos (relabel l ts) := by
  rw [sortedByPos_iff_pairwise_map, relabel_map_posSpeed]
  rw [sortedByPos_iff_pairwise_map] at h
  exact h

lemma preEvict_sorted (s : AntRod) : sortedByPos s.preEvict :=
  sortedByPos_relabel _ _ (sortAnts_sorted s.advanced)

/-- On a list where the predicate can only hold on a prefix (pairwise:
whenever it holds of a later element it holds of an earlier one), dropping
the matching prefix is the same as filtering the predicate out. -/
lemma dropWhile_eq_filter_of_pairwise (p : Ant → Bool) (l : List Ant)
    (h : l.Pairwise fun a b => p b = true → p a = true) :
    l.dropWhile p = l.filter (fun a => !p a) := by
  induction l with
  | nil => rfl
  | cons a t ih =>
    rw [List.pairwise_cons] at h
    by_cases hp : p a = true
    · rw [List.dropWhile_cons, List.filter_cons, if_pos hp,
        if_neg (by simp [hp]), ih h.2]
    · have hpf : p a = false := by simpa using hp
      rw [List.dropWhile_cons, List.filter_cons, if_neg hp,
        if_pos (by simp [hpf])]
      have hft : List.filter (fun a => !p a) t = t := by
        rw [List.filter_eq_self]
        intro b hb
        by_contra hpb
        have hpb2 : p b = true := by
          cases hb2 : p b with
          | true => rfl
          | false => exact absurd (by simp [hb2]) hpb
        exact hp (h.1 b hb hpb2)
      rw [hft]

/-- `drop` up to the first index satisfying `p` (the `drain(0..position)`
pattern of the source) is `dropWhile` of the negation. -/
lemma drop_findIdx_eq_dropWhile (p : Ant → Bool) (l : List Ant) :
    l.drop (l.findIdx p) = l.dropWhile (fun a => !p a) := by
  induction l with
  | nil => rfl
  | cons a t ih =>
    rw [List.findIdx_cons]
    by_cases hp : p a = true
    · simp [hp, List.dropWhile_cons]
    · simp only [Bool.not_eq_true] at hp
      simp [hp, List.dropWhile_cons, List.drop_succ_cons, ih]

/-- On a sorted list, the back-eviction loop removes exactly the ants with
position `≥ 1` (they form a suffix). -/
lemma removeFallenBack_eq_filter (l : List Ant) (h : sortedByPos l) :
    removeFallenBack l = l.filter fun a => decide (a.position < 1) := by
  have h' : l.Pairwise (fun a b : Ant => a.position ≤ b.position) := h
  have hpair : l.reverse.Pairwise fun a b =>
      decide (1 ≤ b.position) = true → decide (1 ≤ a.position) = true := by
    rw [List.pairwise_reverse]
    refine List.Pairwise.imp ?_ h'
    intro a b hab hb
    simp only [decide_eq_true_eq] at hb ⊢
    exact le_trans hb hab
  unfold removeFallenBack
  rw [dropWhile_eq_filter_of_pairwise _ _ hpair, List.filter_reverse,
    List.reverse_reverse]
  refine List.filter_congr fun a _ => ?_
  rw [← decide_not]
  exact decide_eq_decide.mpr not_le

/-- On a sorted list, the two eviction phases together retain exactly the
ants with `0 ≤ position < 1`. -/
lemma removeFallen_eq_filter (l : List Ant) (h : sortedByPos l) :
    removeFallenFront (removeFallenBack l) = l.filter inBounds := by
  rw [removeFallenBack_eq_filter l h]
  unfold removeFallenFront
  rw [drop_findIdx_eq_dropWhile]
  have hs : (l.filter fun a => decide (a.position < 1)).Pairwise
      (fun a b : Ant => a.position ≤ b.position) := by
    have h' : l.Pairwise (fun a b : Ant => a.position ≤ b.position) := h
    exact h'.filter _
  have hpair : (l.filter fun a => decide (a.position < 1)).Pairwise
      fun a b => (!decide (0 ≤ b.position)) = true →
        (!decide (0 ≤ a.position)) = true := by
    refine List.Pairwise.imp ?_ hs
    intro a b hab hb
    simp only [Bool.not_eq_true', decide_eq_false_iff_not, not_le] at hb ⊢
    exact lt_of_le_of_lt hab hb
  rw [dropWhile_eq_filter_of_pairwise _ _ hpair, List.filter_filter]
  refine List.filter_congr fun a _ => ?_
  simp [inBounds]

/-- `step` keeps exactly the in-bounds ants of the advanced-sorted-relabeled
sequence. -/
lemma step_ants_eq (s : AntRod) : s.step.ants = s.preEvict.filter inBounds :=
  removeFallen_eq_filter _ (preEvict_sorted s)

lemma step_ant_step (s : AntRod) : s.step.ant_step = s.ant_step := rfl

lemma stepN_ant_step (s : AntRod) (n : ℕ) :
    (s.stepN n).ant_step = s.ant_step := by
  induction n with
  | zero => rfl
  | succ n ih =>
    show (s.stepN n).step.ant_step = s.ant_step
    rw [step_ant_step, ih]

/-- Every ant surviving a step is strictly inside the rod. -/
lemma step_mem_bounds (s : AntRod) {a : Ant} (h : a ∈ s.step.ants) :
    0 ≤ a.position ∧ a.position < 1 := by
  rw [step_ants_eq] at h
  have h2 := List.of_mem_filter h
  unfold inBounds at h2
  simpa using h2

/-- Every ant surviving a step comes from an ant of the previous state with
the same speed, advanced by `speed * ant_step`. -/
lemma step_mem (s : AntRod) {a : Ant} (h : a ∈ s.step.ants) :
    ∃ b ∈ s.ants, a.speed = b.speed ∧
      a.position = b.position + b.speed * s.ant_step := by
  rw [step_ants_eq] at h
  have h1 : a ∈ s.preEvict := List.mem_of_mem_filter h
  obtain ⟨c, hc, hpos, hspeed⟩ := mem_relabel h1
  have h2 : c ∈ s.advanced := ((sortAnts_perm _).mem_iff).mp hc
  obtain ⟨b, hb, rfl⟩ := List.mem_map.mp h2
  exact ⟨b, hb, hspeed, hpos⟩

/-- Every ant alive after `n` steps descends from an initial ant with the
same speed, moved by `n` increments of `speed * ant_step`. -/
lemma stepN_mem (s : AntRod) (n : ℕ) {a : Ant} (h : a ∈ (s.stepN n).ants) :
    ∃ b ∈ s.ants, a.speed = b.speed ∧
      a.position = b.position + (n : ℚ) * (b.speed * s.ant_step) := by
  induction n generalizing a with
  | zero => exact ⟨a, h, rfl, by simp⟩
  | succ n ih =>
    have h' : a ∈ (s.stepN n).step.ants := h
    obtain ⟨c, hc, hs1, hp1⟩ := step_mem _ h'
    obtain ⟨b, hb, hs2, hp2⟩ := ih hc
    refine ⟨b, hb, hs1.trans hs2, ?_⟩
    rw [hp1, hp2, stepN_ant_step, hs2]
    push_cast
    ring

lemma stepN_mem_bounds (s : AntRod) {n : ℕ} (hn : n ≠ 0) {a : Ant}
    (h : a ∈ (s.stepN n).ants) : 0 ≤ a.position ∧ a.position < 1 := by
  obtain ⟨m, rfl⟩ := Nat.exists_eq_succ_of_ne_zero hn
  exact step_mem_bounds _ h

/-- Molly labels pass through advance/sort/relabel unchanged in number. -/
lemma mollyCount_preEvict (s : AntRod) :
    mollyCount s.preEvict = mollyCount s.ants := by
  unfold mollyCount AntRod.preEvict
  have hlen : (s.advanced.map fun a => a.typ).length =
      (sortAnts s.advanced).length := by
    simp [sortAnts_length]
  have h1 := relabel_map_typ (sortAnts s.advanced)
    (s.advanced.map fun a => a.typ) hlen
  calc (relabel (sortAnts s.advanced)
          (s.advanced.map fun a => a.typ)).countP
        (fun a => decide (a.typ = AntType.Molly))
      = ((relabel (sortAnts s.advanced)
          (s.advanced.map fun a => a.typ)).map (fun a => a.typ)).countP
        (fun t => decide (t = AntType.Molly)) := by
        rw [List.countP_map]; rfl
    _ = (s.advanced.map fun a => a.typ).countP
        (fun t => decide (t = AntType.Molly)) := by rw [h1]
    _ = s.ants.countP (fun a => decide (a.typ = AntType.Molly)) := by
        unfold AntRod.advanced
        rw [List.countP_map, List.countP_map]
        rfl

lemma mollyCount_step_le (s : AntRod) :
    mollyCount s.step.ants ≤ mollyCount s.ants := by
  rw [step_ants_eq, ← mollyCount_preEvict]
  exact List.Sublist.countP_le _ (List.filter_sublist _)

/-- If no Molly-labelled ant is out of bounds at eviction time, the Molly
count is unchanged by the step. -/
lemma mollyCount_step_eq (s : AntRod) (h : ¬ s.mollyEvicted) :
    mollyCount s.step.ants = mollyCount s.ants := by
  rw [step_ants_eq, ← mollyCount_preEvict]
  unfold mollyCount
  rw [List.countP_filter]
  refine List.countP_congr fun a ha => ?_
  constructor
  · intro hx
    exact (Bool.and_eq_true _ _).mp hx |>.1
  · intro hx
    have hib : inBounds a = true := by
      by_contra hibf
      apply h
      refine ⟨a, ha, by simpa using hx, ?_⟩
      unfold inBounds at hibf
      simp only [Bool.and_eq_true, decide_eq_true_eq, not_and_or, not_le,
        not_lt] at hibf
      rcases hibf with h1 | h1
      · exact Or.inl h1
      · exact Or.inr h1
    simp [hx, hib]

/-! ## The regular placement, slot by slot -/

lemma foldl_set_length (is : List ℕ) (f : ℕ → Ant) (l : List Ant) :
    (is.foldl (fun l i => l.set i (f i)) l).length = l.length := by
  induction is generalizing l with
  | nil => rfl
  | cons i is ih => rw [List.foldl_cons, ih, List.length_set]

/-- A left fold of `set` writes `f i` into every slot listed in `is` and
leaves the rest alone.  (Later writes win, but the written value depends
only on the index, so repeated writes agree.) -/
lemma foldl_set_getElem? (is : List ℕ) (f : ℕ → Ant) (l : List Ant) (j : ℕ)
    (hj : j < l.length) :
    (is.foldl (fun l i => l.set i (f i)) l)[j]? =
      if j ∈ is then some (f j) else l[j]? := by
  induction is generalizing l with
  | nil => simp
  | cons i is ih =>
    have hj2 : j < (l.set i (f i)).length := by rw [List.length_set]; exact hj
    rw [List.foldl_cons, ih (l.set i (f i)) hj2]
    rcases Decidable.em (j ∈ is) with hji | hji
    · rw [if_pos hji, if_pos (List.mem_cons_of_mem i hji)]
    · rw [if_neg hji, List.getElem?_set]
      rcases Decidable.em (i = j) with hij | hij
      · subst hij
        rw [if_pos rfl, if_pos hj, if_pos (List.mem_cons_self i is)]
      · rw [if_neg hij, if_neg (by
          intro hc
          rcases List.mem_cons.mp hc with h1 | h1
          · exact hij h1.symm
          · exact hji h1)]

lemma placeLeft_length (count : ℕ) (dis : ℚ) (ants : List Ant) :
    (placeLeft count dis ants).length = ants.length := by
  unfold placeLeft
  rw [foldl_set_length]

lemma placeRegular_length (count : ℕ) (ants : List Ant) :
    (placeRegular count ants).length = ants.length := by
  unfold placeRegular placeRight
  rw [foldl_set_length, List.length_set, placeLeft_length]

/-- What the three write passes of the `regular` branch leave in slot `j`. -/
lemma placeRegular_getElem? (count : ℕ) (ants : List Ant)
    (hlen : ants.length = count) (j : ℕ) (hj : j < count) :
    (placeRegular count ants)[j]? = some (regularAnt count j) := by
  have hj1 : j < ants.length := by rw [hlen]; exact hj
  have hj2 : j < ((placeLeft count (1 / ((count : ℚ) + 1)) ants).set (count / 2)
      { position := 1 / 2, speed := 1, typ := AntType.Molly }).length := by
    rw [List.length_set, placeLeft_length]
    exact hj1
  have hval : ∀ i : ℕ,
      (1 / ((count : ℚ) + 1)) * (i : ℚ) + 1 / ((count : ℚ) + 1) =
        ((i : ℚ) + 1) / ((count : ℚ) + 1) := by
    intro i
    rw [one_div_mul_eq_div, div_add_div_same]
  have hmem : j ∈ List.range' (count / 2 + 1) (count - (count / 2 + 1)) ↔
      count / 2 + 1 ≤ j := by
    rw [List.mem_range']
    constructor
    · rintro ⟨i, hi, rfl⟩
      omega
    · intro h1
      exact ⟨j - (count / 2 + 1), by omega, by omega⟩
  unfold placeRegular placeRight
  rw [foldl_set_getElem? _ _ _ j hj2]
  rcases Decidable.em (count / 2 + 1 ≤ j) with hcase | hcase
  · rw [if_pos (hmem.mpr hcase)]
    unfold regularAnt
    rw [if_neg (by omega), if_neg (by omega), hval]
  · rw [if_neg (fun hc => hcase (hmem.mp hc)), List.getElem?_set]
    rcases Decidable.em (j = count / 2) with hj3 | hj3
    · rw [if_pos hj3.symm, if_pos (by rw [placeLeft_length]; omega)]
      unfold regularAnt
      rw [if_pos hj3]
    · rw [if_neg (fun hc => hj3 hc.symm)]
      unfold placeLeft
      rw [foldl_set_getElem? _ _ _ j hj1,
        if_pos (List.mem_range.mpr (by omega))]
      unfold regularAnt
      rw [if_neg hj3, if_pos (by omega), hval]

/-- The regular branch, as a whole: slot `i` holds `regularAnt count i`. -/
lemma placeRegular_eq (count : ℕ) (ants : List Ant)
    (hlen : ants.length = count) :
    placeRegular count ants = (List.range count).map (regularAnt count) := by
  refine List.ext_getElem? fun j => ?_
  rcases Decidable.em (j < count) with hj | hj
  · rw [placeRegular_getElem? count ants hlen j hj, List.getElem?_map,
      List.getElem?_range hj]
    rfl
  · rw [List.getElem?_eq_none (by rw [placeRegular_length, hlen]; omega),
      List.getElem?_eq_none
        (by rw [List.length_map, List.length_range]; omega)]

lemma from_args_regular_ants (args : Args) (drawn : List Ant)
    (hreg : args.regular = true) (hlen : drawn.length = args.ant_count) :
    (AntRod.from_args args drawn).ants =
      (List.range args.ant_count).map (regularAnt args.ant_count) := by
  unfold AntRod.from_args
  rw [if_pos hreg]
  exact placeRegular_eq _ _ hlen

lemma regularAnt_position (count i : ℕ) : (regularAnt count i).position =
    if i = count / 2 then (1 : ℚ) / 2
    else ((i : ℚ) + 1) / ((count : ℚ) + 1) := by
  unfold regularAnt
  split_ifs <;> rfl

lemma regularAnt_typ (count i : ℕ) : (regularAnt count i).typ =
    if i = count / 2 then AntType.Molly else AntType.Some := by
  unfold regularAnt
  split_ifs <;> rfl

lemma regularAnt_speed (count i : ℕ) :
    (regularAnt count i).speed = 1 ∨ (regularAnt count i).speed = -1 := by
  unfold regularAnt
  split_ifs
  · exact Or.inl rfl
  · exact Or.inl rfl
  · exact Or.inr rfl

lemma regularAnt_position_bounds {count i : ℕ} (hi : i < count) :
    0 < (regularAnt count i).position ∧ (regularAnt count i).position < 1 := by
  rw [regularAnt_position]
  have hc : (0 : ℚ) < (count : ℚ) + 1 := by positivity
  rcases Decidable.em (i = count / 2) with h | h
  · rw [if_pos h]
    norm_num
  · rw [if_neg h]
    constructor
    · positivity
    · rw [div_lt_one hc]
      have hic : (i : ℚ) < (count : ℚ) := by exact_mod_cast hi
      linarith

/-- The regular placement is non-decreasing in the index: left ants sit at
`(i+1)/(count+1)`, Molly at `1/2` fits between its neighbours. -/
lemma regularAnt_position_mono {count i j : ℕ} (hij : i < j) (hj : j < count) :
    (regularAnt count i).position ≤ (regularAnt count j).position := by
  rw [regularAnt_position, regularAnt_position]
  have hc : (0 : ℚ) < (count : ℚ) + 1 := by positivity
  have h2 : (0 : ℚ) < 2 := by norm_num
  rcases Decidable.em (i = count / 2) with hi2 | hi2 <;>
    rcases Decidable.em (j = count / 2) with hj2 | hj2
  · omega
  · rw [if_pos hi2, if_neg hj2, div_le_div_iff₀ h2 hc]
    have hn : count + 1 ≤ 2 * j + 2 := by omega
    have hq : (count : ℚ) + 1 ≤ 2 * (j : ℚ) + 2 := by exact_mod_cast hn
    linarith
  · rw [if_neg hi2, if_pos hj2, div_le_div_iff₀ hc h2]
    have hn : 2 * i + 2 ≤ count + 1 := by omega
    have hq : 2 * (i : ℚ) + 2 ≤ (count : ℚ) + 1 := by exact_mod_cast hn
    linarith
  · rw [if_neg hi2, if_neg hj2, div_le_div_iff₀ hc hc]
    have hq : (i : ℚ) + 1 ≤ (j : ℚ) + 1 := by
      have := hij.le
      exact_mod_cast Nat.succ_le_succ this
    nlinarith

lemma regular_sortedByPos (count : ℕ) :
    sortedByPos ((List.range count).map (regularAnt count)) := by
  refine List.pairwise_iff_getElem.mpr ?_
  intro i j hi hj hij
  have hi2 : i < count := by simpa using hi
  have hj2 : j < count := by simpa using hj
  have hi3 : i < (List.range count).length := by simpa using hi2
  have hj3 : j < (List.range count).length := by simpa using hj2
  rw [List.getElem_map, List.getElem_map, List.getElem_range, List.getElem_range]
  exact regularAnt_position_mono hij hj2

lemma countP_range_eq_one {count k : ℕ} (hk : k < count) :
    (List.range count).countP (fun i => decide (i = k)) = 1 := by
  induction count with
  | zero => omega
  | succ n ih =>
    rw [List.range_succ, List.countP_append]
    rcases Decidable.em (k < n) with h | h
    · rw [ih h]
      simp [List.countP_cons, show ¬(n = k) by omega]
    · have hkn : k = n := by omega
      subst hkn
      have h0 : (List.range k).countP (fun i => decide (i = k)) = 0 := by
        rw [List.countP_eq_zero]
        intro a ha
        simp only [decide_eq_true_eq]
        have := List.mem_range.mp ha
        omega
      rw [h0]
      simp [List.countP_cons]

/-- The regular placement contains exactly one Molly (at index `count / 2`). -/
lemma mollyCount_regular (count : ℕ) (h1 : 1 ≤ count) :
    mollyCount ((List.range count).map (regularAnt count)) = 1 := by
  unfold mollyCount
  rw [List.countP_map]
  have hcong : (List.range count).countP
      ((fun a => decide (a.typ = AntType.Molly)) ∘ regularAnt count) =
      (List.range count).countP (fun i => decide (i = count / 2)) := by
    refine List.countP_congr fun i _ => ?_
    simp only [Function.comp_apply, regularAnt_typ, decide_eq_true_eq]
    rcases Decidable.em (i = count / 2) with h | h
    · simp [h]
    · simp [h]
  rw [hcong, countP_range_eq_one (by omega)]

/-! ## The random placement -/

lemma list_set_eq_self {α : Type} (l : List α) (n : ℕ) (a : α)
    (h : l[n]? = some a) : l.set n a = l := by
  refine List.ext_getElem? fun j => ?_
  rw [List.getElem?_set]
  rcases Decidable.em (n = j) with hnj | hnj
  · subst hnj
    obtain ⟨hlt, he⟩ := List.getElem?_eq_some.mp h
    rw [if_pos rfl, if_pos hlt, List.getElem?_eq_getElem hlt, he]
  · rw [if_neg hnj]

/-- Marking the Molly changes only the `typ` field. -/
lemma setMolly_map_posSpeed (l : List Ant) (i : ℕ) :
    (setMolly l i).map (fun a => (a.position, a.speed)) =
      l.map (fun a => (a.position, a.speed)) := by
  unfold setMolly
  cases h : l[i]? with
  | none => rfl
  | some a =>
    rw [List.map_set]
    refine list_set_eq_self _ _ _ ?_
    rw [List.getElem?_map, h]
    rfl

lemma mem_of_map_posSpeed_eq {l l' : List Ant}
    (h : l'.map (fun a => (a.position, a.speed)) =
      l.map (fun a => (a.position, a.speed)))
    {a : Ant} (ha : a ∈ l') :
    ∃ b ∈ l, a.position = b.position ∧ a.speed = b.speed := by
  have h1 : (a.position, a.speed) ∈ l'.map (fun a => (a.position, a.speed)) :=
    List.mem_map_of_mem _ ha
  rw [h] at h1
  obtain ⟨b, hb, he⟩ := List.mem_map.mp h1
  refine ⟨b, hb, ?_, ?_⟩ <;> simp_all [Prod.ext_iff]

lemma sortedByPos_setMolly (l : List Ant) (i : ℕ) (h : sortedByPos l) :
    sortedByPos (setMolly l i) := by
  rw [sortedByPos_iff_pairwise_map, setMolly_map_posSpeed]
  rw [sortedByPos_iff_pairwise_map] at h
  exact h

/-- Marking rank `i` in an all-`Some` list yields exactly one Molly. -/
lemma setMolly_mollyCount (l : List Ant) (i : ℕ) (hi : i < l.length)
    (hall : ∀ a ∈ l, a.typ = AntType.Some) :
    mollyCount (setMolly l i) = 1 := by
  unfold setMolly
  cases h : l[i]? with
  | none =>
    rw [List.getElem?_eq_getElem hi] at h
    simp at h
  | some a =>
    obtain ⟨hlt, he⟩ := List.getElem?_eq_some.mp h
    have hmem : a ∈ l := he ▸ List.getElem_mem hlt
    have h0 : l.countP (fun a => decide (a.typ = AntType.Molly)) = 0 := by
      rw [List.countP_eq_zero]
      intro b hb
      simp [hall b hb]
    unfold mollyCount
    rw [List.countP_set _ _ _ _ hlt, h0, he]
    simp [hall a hmem]

/-! ## Initialization invariants -/

lemma from_args_random_ants (args : Args) (drawn : List Ant)
    (hreg : args.regular = false) :
    (AntRod.from_args args drawn).ants =
      setMolly (sortAnts drawn) args.molly_index := by
  unfold AntRod.from_args
  rw [if_neg (by rw [hreg]; simp)]

lemma from_args_sorted (args : Args) (drawn : List Ant)
    (hlen : drawn.length = args.ant_count) :
    sortedByPos (AntRod.from_args args drawn).ants := by
  cases hreg : args.regular with
  | false =>
    rw [from_args_random_ants args drawn hreg]
    exact sortedByPos_setMolly _ _ (sortAnts_sorted drawn)
  | true =>
    rw [from_args_regular_ants args drawn hreg hlen]
    exact regular_sortedByPos _

/-- A validly-configured initial state holds exactly one Molly, in either
placement mode. -/
lemma from_args_mollyCount (args : Args) (drawn : List Ant)
    (hmi : args.molly_index < args.ant_count)
    (hlen : drawn.length = args.ant_count)
    (hdraw : ∀ a ∈ drawn, a.typ = AntType.Some) :
    mollyCount (AntRod.from_args args drawn).ants = 1 := by
  cases hreg : args.regular with
  | true =>
    rw [from_args_regular_ants args drawn hreg hlen]
    exact mollyCount_regular _ (by omega)
  | false =>
    rw [from_args_random_ants args drawn hreg]
    refine setMolly_mollyCount _ _ ?_ ?_
    · rw [sortAnts_length, hlen]
      exact hmi
    · intro a ha
      exact hdraw a (((sortAnts_perm drawn).mem_iff).mp ha)

/-- Every ant of a validly-configured initial state has speed `±1` and a
position inside `[0, 1)`. -/
lemma from_args_ant_facts (args : Args) (drawn : List Ant)
    (hlen : drawn.length = args.ant_count)
    (hdraw : ∀ a ∈ drawn, validDraw a) :
    ∀ a ∈ (AntRod.from_args args drawn).ants,
      (a.speed = 1 ∨ a.speed = -1) ∧ 0 ≤ a.position ∧ a.position < 1 := by
  cases hreg : args.regular with
  | true =>
    rw [from_args_regular_ants args drawn hreg hlen]
    intro a ha
    obtain ⟨i, hi, rfl⟩ := List.mem_map.mp ha
    have hic : i < args.ant_count := List.mem_range.mp hi
    obtain ⟨h1, h2⟩ := regularAnt_position_bounds hic
    exact ⟨regularAnt_speed _ _, le_of_lt h1, h2⟩
  | false =>
    rw [from_args_random_ants args drawn hreg]
    intro a ha
    obtain ⟨b, hb, hp, hs⟩ :=
      mem_of_map_posSpeed_eq (setMolly_map_posSpeed _ _) ha
    have hb2 : b ∈ drawn := ((sortAnts_perm drawn).mem_iff).mp hb
    obtain ⟨hb0, hb1, hbs, _⟩ := hdraw b hb2
    refine ⟨?_, ?_, ?_⟩
    · rw [hs]
      exact hbs
    · rw [hp]
      exact hb0
    · rw [hp]
      exact hb1

lemma regular_molly_at_center (count : ℕ) (h1 : 1 ≤ count) :
    (((List.range count).map (regularAnt count))[count / 2]?.map
      fun a => a.typ) = some AntType.Molly := by
  have h2 : count / 2 < count := by omega
  rw [List.getElem?_map, List.getElem?_range h2]
  simp [regularAnt_typ]

/-! ## The claims -/

/-- C2 counterexample: for `agent_count = 2` in Regular placement mode the
produced positions are `[1/3, 1/2]` — the second agent (Molly, index
`2 / 2 = 1`) sits at `1/2`, which is neither `1/3` nor `2/3`, the only
values of the form `k/(N+1)` with `k = 1..2`.  So the positions are not
"exactly `k/(N+1)` for `k = 1..N`". -/
theorem C2_counterexample :
    (AntRod.from_args
        { ant_count := 2, molly_index := 0, ant_step := 1 / 1000,
          regular := true }
        (List.replicate 2 sampleDraw)).ants.map (fun a => a.position) =
      [1 / 3, 1 / 2] ∧
    ((1 : ℚ) / 2 ≠ 1 / 3 ∧ (1 : ℚ) / 2 ≠ 2 / 3) := by
  constructor
  · decide
  · decide

/-- C2 (amended): for every `agent_count ≥ 1` in Regular placement mode the
sequence has exactly `agent_count` agents; the agent at index `i ≠ N/2` has
position `(i+1)/(N+1)`, the Molly agent at index `N/2` has position `1/2`
(which coincides with `(N/2+1)/(N+1)` exactly when `N` is odd), and every
position lies strictly inside the open interval `(0, 1)`. -/
theorem C2_regular_positions (args : Args) (drawn : List Ant)
    (hreg : args.regular = true) (h1 : 1 ≤ args.ant_count)
    (hlen : drawn.length = args.ant_count) :
    (AntRod.from_args args drawn).ants.length = args.ant_count ∧
      ∀ i (hi : i < (AntRod.from_args args drawn).ants.length),
        (((AntRod.from_args args drawn).ants.get ⟨i, hi⟩).position =
          if i = args.ant_count / 2 then (1 : ℚ) / 2
          else ((i : ℚ) + 1) / ((args.ant_count : ℚ) + 1)) ∧
        0 < ((AntRod.from_args args drawn).ants.get ⟨i, hi⟩).position ∧
        ((AntRod.from_args args drawn).ants.get ⟨i, hi⟩).position < 1 := by
  have he := from_args_regular_ants args drawn hreg hlen
  have hl : (AntRod.from_args args drawn).ants.length = args.ant_count := by
    rw [he, List.length_map, List.length_range]
  refine ⟨hl, fun i hi => ?_⟩
  have hi2 : i < args.ant_count := by rw [← hl]; exact hi
  have hq : (AntRod.from_args args drawn).ants[i]? =
      some (regularAnt args.ant_count i) := by
    rw [he, List.getElem?_map, List.getElem?_range hi2]
    rfl
  have hq2 : (AntRod.from_args args drawn).ants[i]? =
      some ((AntRod.from_args args drawn).ants.get ⟨i, hi⟩) := by
    rw [List.getElem?_eq_getElem hi, List.get_eq_getElem]
  have hg : (AntRod.from_args args drawn).ants.get ⟨i, hi⟩ =
      regularAnt args.ant_count i :=
    Option.some.inj (hq2.symm.trans hq)
  rw [hg, regularAnt_position]
  obtain ⟨hb1, hb2⟩ := regularAnt_position_bounds hi2
  rw [regularAnt_position] at hb1 hb2
  exact ⟨rfl, hb1, hb2⟩

/-- C2 amended, exercised at `agent_count = 3` (odd, all positions of the
form `k/4`). -/
theorem C2_regular_positions_witness :
    (AntRod.from_args sampleArgs (List.replicate 3 sampleDraw)).ants.length
      = 3 :=
  (C2_regular_positions sampleArgs (List.replicate 3 sampleDraw)
    (by decide) (by decide) (by decide)).1

/-- C3 counterexample: with `agent_count = 0` (and the default molly index)
initialization does not succeed with an empty sequence — `Args::new`
rejects the configuration (the default molly index `0 / 2 = 0` is `≥ 0 =
agent_count`), so no State is ever produced. -/
theorem C3_counterexample :
    Args.new 0 Option.none (1 / 1000) false =
      Except.error "Invalid molly index" := by
  rfl

/-- C3 (amended): for `agent_count = 0` and any molly-index option,
initialization fails cleanly with the invalid-molly-index configuration
error before any agent state is produced (it reports an error rather than
crash; `is_terminated` is never consulted because no State exists). -/
theorem C3_zero_count_fails (m : Option ℕ) (st : ℚ) (r : Bool) :
    Args.new 0 m st r = Except.error "Invalid molly index" := by
  unfold Args.new
  simp

/-- C4: the State produced by `from_args` (with a draw list of the
configured length) has its agent sequence non-decreasing by position, and
`step` re-establishes that invariant on any State satisfying it. -/
theorem C4_sortedness (args : Args) (drawn : List Ant)
    (hlen : drawn.length = args.ant_count) :
    sortedByPos (AntRod.from_args args drawn).ants ∧
      ∀ s : AntRod, sortedByPos s.ants → sortedByPos s.step.ants := by
  refine ⟨from_args_sorted args drawn hlen, fun s _ => ?_⟩
  rw [step_ants_eq]
  have h' : s.preEvict.Pairwise (fun a b : Ant => a.position ≤ b.position) :=
    preEvict_sorted s
  exact h'.filter _

/-- C4, exercised on a concrete three-ant regular configuration and on a
concrete running state. -/
theorem C4_sortedness_witness :
    sortedByPos (AntRod.from_args sampleArgs
      (List.replicate 3 sampleDraw)).ants ∧
    sortedByPos sampleRod.step.ants :=
  ⟨(C4_sortedness sampleArgs (List.replicate 3 sampleDraw) (by decide)).1,
   (C4_sortedness sampleArgs (List.replicate 3 sampleDraw) (by decide)).2
     sampleRod (by decide)⟩

/-- C5: after the sort phase, eviction removes exactly the trailing agents
with position `≥ 1` and the leading agents with position `< 0`: the
surviving sequence is precisely the in-bounds filter of the pre-eviction
sequence (an agent at exactly `0` is retained), and every surviving
position `p` satisfies `0 ≤ p < 1`. -/
theorem C5_eviction_exact (s : AntRod) :
    s.step.ants = s.preEvict.filter inBounds ∧
      ∀ a ∈ s.step.ants, 0 ≤ a.position ∧ a.position < 1 :=
  ⟨step_ants_eq s, fun _ h => step_mem_bounds s h⟩

/-- C5, exercised on a concrete one-ant state. -/
theorem C5_eviction_exact_witness :
    sampleRod.step.ants = sampleRod.preEvict.filter inBounds ∧
      (0 : ℚ) ≤ (Ant.mk (1 / 2) 1 AntType.Molly).position ∧
        (Ant.mk (1 / 2) 1 AntType.Molly).position < 1 :=
  ⟨(C5_eviction_exact sampleRod).1,
   (C5_eviction_exact sampleRod).2 (Ant.mk (1 / 2) 1 AntType.Molly)
     (by decide)⟩

/-- C1: starting from a validly-initialized State (valid molly index, draw
list of the configured length, draws typed `Some` as `Ant::default()`
produces), after any number of steps the Molly count is at most 1; and as
long as no step has evicted the Molly-labelled trajectory, the count is
exactly 1. -/
theorem C1_single_molly (args : Args) (drawn : List Ant)
    (hmi : args.molly_index < args.ant_count)
    (hlen : drawn.length = args.ant_count)
    (hdraw : ∀ a ∈ drawn, a.typ = AntType.Some) (n : ℕ) :
    mollyCount ((AntRod.from_args args drawn).stepN n).ants ≤ 1 ∧
      ((∀ k < n, ¬ ((AntRod.from_args args drawn).stepN k).mollyEvicted) →
        mollyCount ((AntRod.from_args args drawn).stepN n).ants = 1) := by
  induction n with
  | zero =>
    exact ⟨le_of_eq (from_args_mollyCount args drawn hmi hlen hdraw),
      fun _ => from_args_mollyCount args drawn hmi hlen hdraw⟩
  | succ n ih =>
    constructor
    · calc mollyCount
            (((AntRod.from_args args drawn).stepN n).step).ants
          ≤ mollyCount ((AntRod.from_args args drawn).stepN n).ants :=
            mollyCount_step_le _
        _ ≤ 1 := ih.1
    · intro hne
      have h1 : mollyCount ((AntRod.from_args args drawn).stepN n).ants = 1 :=
        ih.2 fun k hk => hne k (Nat.lt_succ_of_lt hk)
      have h2 : ¬ ((AntRod.from_args args drawn).stepN n).mollyEvicted :=
        hne n (Nat.lt_succ_self n)
      show mollyCount (((AntRod.from_args args drawn).stepN n).step).ants = 1
      rw [mollyCount_step_eq _ h2, h1]

/-- C1, exercised: the three-ant regular configuration still has exactly one
Molly after one tick. -/
theorem C1_single_molly_witness :
    mollyCount ((AntRod.from_args sampleArgs
      (List.replicate 3 sampleDraw)).stepN 1).ants = 1 :=
  (C1_single_molly sampleArgs (List.replicate 3 sampleDraw)
    (by decide) (by decide) (by decide) 1).2 (by decide)

/-- C6: `Args::new` rejects every configuration with
`molly_index ≥ agent_count` with the invalid-configuration error (before
any agent state exists — `Args::new` produces no agents), and this check
passes for every `molly_index < agent_count`. -/
theorem C6_molly_index_validation (c mi : ℕ) (st : ℚ) (r : Bool) :
    (c ≤ mi → Args.new c (Option.some mi) st r =
      Except.error "Invalid molly index") ∧
    (mi < c → Args.new c (Option.some mi) st r =
      Except.ok
        { ant_count := c, molly_index := mi, ant_step := st, regular := r })
    := by
  constructor
  · intro h
    unfold Args.new
    simp [h]
  · intro h
    have hn : ¬ c ≤ mi := by omega
    unfold Args.new
    simp [hn]

/-- C6, exercised: `agent_count = 4` with `molly_index = 4` fails. -/
theorem C6_molly_index_validation_witness :
    Args.new 4 (Option.some 4) (1 / 1000) false =
      Except.error "Invalid molly index" :=
  (C6_molly_index_validation 4 4 (1 / 1000) false).1 (by decide)

/-- C7 counterexample: `Args::new` accepts a step size of `0`
(non-positive) with an otherwise default configuration — initialization
succeeds and the simulation starts, instead of failing with an
InvalidConfiguration error. -/
theorem C7_counterexample :
    Args.new 25 Option.none 0 false =
      Except.ok
        { ant_count := 25, molly_index := 12, ant_step := 0, regular := false }
    := by
  rfl

/-- C7 (amended): initialization performs no validation of the step size at
all: any configuration with a valid molly index is accepted even when the
step size is non-positive, and the simulation then starts.  The only
initialization failure is `molly_index ≥ agent_count`. -/
theorem C7_no_step_size_validation (c mi : ℕ) (st : ℚ) (r : Bool)
    (hst : st ≤ 0) (hmi : mi < c) :
    Args.new c (Option.some mi) st r =
      Except.ok
        { ant_count := c, molly_index := mi, ant_step := st, regular := r }
    := by
  have hn : ¬ c ≤ mi := by omega
  unfold Args.new
  simp [hn]

/-- C7 amended, exercised with a negative step size. -/
theorem C7_no_step_size_validation_witness :
    Args.new 25 (Option.some 12) (-1 / 1000) false =
      Except.ok
        { ant_count := 25, molly_index := 12, ant_step := -1 / 1000, regular := false }
    :=
  C7_no_step_size_validation 25 12 (-1 / 1000) false (by decide) (by decide)

/-- C8: every validly-initialized State with positive step size reaches the
empty agent sequence after finitely many steps. -/
theorem C8_termination (args : Args) (drawn : List Ant)
    (hlen : drawn.length = args.ant_count)
    (hdraw : ∀ a ∈ drawn, validDraw a)
    (hstep : 0 < args.ant_step) :
    ∃ n : ℕ, ((AntRod.from_args args drawn).stepN n).ants = [] := by
  obtain ⟨n, hn⟩ := exists_nat_ge (1 / args.ant_step)
  refine ⟨n, ?_⟩
  have hn1 : 1 ≤ (n : ℚ) * args.ant_step := by
    rw [div_le_iff₀ hstep] at hn
    linarith
  have hn0 : n ≠ 0 := by
    rintro rfl
    norm_num at hn1
  by_contra hne
  obtain ⟨a, ha⟩ := List.exists_mem_of_ne_nil _ hne
  obtain ⟨hb0, hb1⟩ := stepN_mem_bounds _ hn0 ha
  obtain ⟨b, hb, hsp, hpos⟩ := stepN_mem _ n ha
  obtain ⟨hbs, hbp0, hbp1⟩ := from_args_ant_facts args drawn hlen hdraw b hb
  have hstep' : (AntRod.from_args args drawn).ant_step = args.ant_step := rfl
  rw [hstep'] at hpos
  rcases hbs with h1 | h1
  · rw [h1, one_mul] at hpos
    rw [hpos] at hb1
    linarith
  · rw [h1] at hpos
    rw [hpos] at hb0
    have hmul : (n : ℚ) * (-1 * args.ant_step) = -((n : ℚ) * args.ant_step) := by
      ring
    rw [hmul] at hb0
    linarith

/-- C8, exercised: the one-ant regular configuration with step `1/2`
terminates. -/
theorem C8_termination_witness :
    ∃ n : ℕ, ((AntRod.from_args sampleArgs1 [sampleDraw]).stepN n).ants
      = [] :=
  C8_termination sampleArgs1 [sampleDraw] (by decide) (by decide) (by decide)

/-- C9: `step` never modifies a speed: every agent surviving a step carries
the exact speed of an agent of the previous state, and its position is that
agent's position advanced by `speed * ant_step` (sort and relabel touch
only positions-order and kind labels). -/
theorem C9_speed_frame (s : AntRod) {a : Ant} (h : a ∈ s.step.ants) :
    ∃ b ∈ s.ants, a.speed = b.speed ∧
      a.position = b.position + b.speed * s.ant_step :=
  step_mem s h

/-- C9, exercised on a concrete one-ant state. -/
theorem C9_speed_frame_witness :
    ∃ b ∈ sampleRod.ants,
      (Ant.mk (1 / 2) 1 AntType.Molly).speed = b.speed ∧
        (Ant.mk (1 / 2) 1 AntType.Molly).position =
          b.position + b.speed * sampleRod.ant_step :=
  C9_speed_frame sampleRod (by decide)

/-- C10: in Regular placement mode the produced State is independent of the
molly index (and of the RNG draws): two valid configurations differing only
in molly index yield identical States, and the Molly is always the agent at
index `ant_count / 2`. -/
theorem C10_regular_molly_independence (c m1 m2 : ℕ) (st : ℚ)
    (d1 d2 : List Ant) (h1 : m1 < c) (h2 : m2 < c)
    (hl1 : d1.length = c) (hl2 : d2.length = c) :
    AntRod.from_args { ant_count := c, molly_index := m1, ant_step := st, regular := true } d1 =
      AntRod.from_args { ant_count := c, molly_index := m2, ant_step := st, regular := true } d2 ∧
    ((AntRod.from_args { ant_count := c, molly_index := m1, ant_step := st, regular := true } d1).ants[c / 2]?.map fun a => a.typ) =
      some AntType.Molly := by
  have he1 := from_args_regular_ants
    { ant_count := c, molly_index := m1, ant_step := st, regular := true }
    d1 rfl hl1
  have he2 := from_args_regular_ants
    { ant_count := c, molly_index := m2, ant_step := st, regular := true }
    d2 rfl hl2
  have hants : (AntRod.from_args { ant_count := c, molly_index := m1, ant_step := st, regular := true } d1).ants =
      (AntRod.from_args { ant_count := c, molly_index := m2, ant_step := st, regular := true } d2).ants := by
    rw [he1, he2]
  constructor
  · calc AntRod.from_args { ant_count := c, molly_index := m1, ant_step := st, regular := true } d1
        = { ants := (AntRod.from_args { ant_count := c, molly_index := m1, ant_step := st, regular := true } d1).ants, ant_step := st, time := 0 } := rfl
      _ = { ants := (AntRod.from_args { ant_count := c, molly_index := m2, ant_step := st, regular := true } d2).ants, ant_step := st, time := 0 } := by rw [hants]
      _ = AntRod.from_args { ant_count := c, molly_index := m2, ant_step := st, regular := true } d2 := rfl
  · rw [he1]
    exact regular_molly_at_center c (by omega)

/-- C10, exercised at `agent_count = 2` with molly indices 0 and 1. -/
theorem C10_regular_molly_independence_witness :
    AntRod.from_args { ant_count := 2, molly_index := 0, ant_step := 1, regular := true } (List.replicate 2 sampleDraw) =
      AntRod.from_args { ant_count := 2, molly_index := 1, ant_step := 1, regular := true } (List.replicate 2 sampleDraw) :=
  (C10_regular_molly_independence 2 0 1 1 (List.replicate 2 sampleDraw)
    (List.replicate 2 sampleDraw) (by decide) (by decide) (by decide)
    (by decide)).1
